import Mathlib

/-!
Verification of the ChildesPython transcript library.

The Python source (childespython/transcript.py and childespython/util.py) is
shallowly embedded below.  Python strings are modelled as `List Char` (named
`Str`), Python dicts whose insertion order matters are modelled as association
lists, and Python code that can raise an exception is modelled with
`Option`/`Except`.  Every definition follows the source line by line; the file
then states and proves (or refutes) the specification's claims about it.
-/

namespace ChildesPython

/-- A Python string, modelled as its list of characters. -/
abbrev Str := List Char

/-- Conversion from Lean string literals to the `Str` model. -/
def pyStr (s : String) : Str := s.data

/-- Python `str.strip()`: remove leading and trailing whitespace. -/
def pyStrip (s : Str) : Str :=
  ((s.dropWhile Char.isWhitespace).reverse.dropWhile Char.isWhitespace).reverse

/-- Python `s.startswith(p)`. -/
def pyStartsWith (p s : Str) : Bool := p.isPrefixOf s

/-- Python `s.split('\t', 1)`: the part before the first tab, and, when a tab
is present, the remainder after it.  `none` in the second component models the
one-element list Python returns when the separator does not occur (so that
indexing `[1]` raises `IndexError`). -/
def splitTab1 (s : Str) : Str × Option Str :=
  let pre := s.takeWhile (fun c => c ≠ '\t')
  if pre.length = s.length then (s, none)
  else (pre, some (s.drop (pre.length + 1)))

/-- Python `s.strip(':')`: remove leading and trailing colon characters. -/
def stripColons (s : Str) : Str :=
  ((s.dropWhile (fun c => c = ':')).reverse.dropWhile (fun c => c = ':')).reverse

/-- Python `s.split(sep)` for a one-character separator: split at every
occurrence, keeping empty pieces (`"".split(sep) == [""]`). -/
def splitOnChar (sep : Char) : Str → List Str
  | [] => [[]]
  | c :: cs =>
    if c = sep then [] :: splitOnChar sep cs
    else
      match splitOnChar sep cs with
      | [] => [[c]]
      | p :: ps => (c :: p) :: ps

/-! ## transcript.py, `Transcript.get_cleaned_transcript` (lines 38-55) -/

/-- Does a stripped line begin a new merged record
(`line.startswith("@") or line.startswith("*") or line.startswith("%")`)? -/
def isMarkerLine (l : Str) : Bool :=
  pyStartsWith (pyStr "@") l || pyStartsWith (pyStr "*") l || pyStartsWith (pyStr "%") l

/-- One iteration of the `for line in self.recording` loop of
`get_cleaned_transcript`: a marker line is appended, any other line is glued
onto the last record with a single space (or starts the list when empty). -/
def cleanStep (acc : List Str) (line : Str) : List Str :=
  let l := pyStrip line
  if isMarkerLine l then acc ++ [l]
  else if acc = [] then [l]
  else acc.dropLast ++ [acc.getLastD [] ++ ' ' :: l]

/-- `Transcript.get_cleaned_transcript`, as a function of the raw recording
lines. -/
def get_cleaned_transcript (recording : List Str) : List Str :=
  recording.foldl cleanStep []

/-! ## transcript.py, `Transcript.get_structured_transcript` (lines 96-143) -/

/-- One entry of the structured transcript: the dict
`{"id": ..., "speaker's tier": ..., "dependent tiers": ...}`.  `id` is
`Option Nat` because the dict is initialized with `"id": None`. -/
structure Utterance where
  id : Option Nat
  speakerTier : List (Str × Str)
  dependentTiers : List (Str × Str)
deriving DecidableEq, Repr

/-- Python `dict.update({k: v})` on an insertion-ordered dict: overwrite the
value in place when the key exists, otherwise append the pair. -/
def dictUpdate (d : List (Str × Str)) (k v : Str) : List (Str × Str) :=
  if d.any (fun p => p.1 == k) then
    d.map (fun p => if p.1 == k then (p.1, v) else p)
  else d ++ [(k, v)]

/-- The `for line in body_of_transcript` loop of `get_structured_transcript`,
with explicit state: the output list so far, the current entry and the id
counter.  `none` models the `IndexError` raised by `line_parts[1]` when a body
line has no tab. -/
def parseLoop : List Str → List Utterance → Utterance → Nat → Option (List Utterance)
  | [], acc, cur, _ =>
    -- "Append the final utterance"
    if cur.speakerTier ≠ [] ∨ cur.dependentTiers ≠ [] then some (acc ++ [cur])
    else some acc
  | l :: ls, acc, cur, cnt =>
    let parts := splitTab1 l
    if parts.1.contains '*' then
      match parts.2 with
      | none => none
      | some text =>
        if cur.speakerTier ≠ [] then
          parseLoop ls (acc ++ [cur])
            { id := some (cnt + 1),
              speakerTier := [(stripColons parts.1, text)],
              dependentTiers := [] } (cnt + 1)
        else
          parseLoop ls acc { cur with speakerTier := [(stripColons parts.1, text)] } cnt
    else if parts.1.contains '%' then
      match parts.2 with
      | none => none
      | some text =>
        parseLoop ls acc
          { cur with dependentTiers := dictUpdate cur.dependentTiers (stripColons parts.1) text } cnt
    else
      parseLoop ls acc cur cnt

/-- Lines 109-143 of `get_structured_transcript`: filter the merged lines to
the transcript body and run the parsing loop from the initial
`{"id": None, "speaker's tier": {}, "dependent tiers": {}}` entry with
`id_counter = 1`. -/
def structuredFromMerged (merged : List Str) : Option (List Utterance) :=
  let body := merged.filter (fun bit => pyStartsWith (pyStr "*") bit || pyStartsWith (pyStr "%") bit)
  parseLoop body [] { id := none, speakerTier := [], dependentTiers := [] } 1

/-- `Transcript.get_structured_transcript` as a function of the raw recording
lines. -/
def get_structured_transcript (recording : List Str) : Option (List Utterance) :=
  structuredFromMerged (get_cleaned_transcript recording)

/-! ## transcript.py, `Transcript.get_participants_and_age` (lines 57-71) -/

/-- `Transcript.get_participants_and_age` as a function of the raw recording
lines, producing the `{"participants": ..., "age": ...}` pair.  Each `none`
models one of the `IndexError`s Python can raise: `participants_line[0]` on an
empty filter result, `.split('\t', 1)[1]` on a participants line without a tab,
`age_line[0]` on an empty filter result, and `[...][0]` on the field list
(the last one is proved unreachable below). -/
def get_participants_and_age (recording : List Str) : Option (Str × Str) :=
  let cleaned := get_cleaned_transcript recording
  match cleaned.filter (fun line => pyStartsWith (pyStr "@Participants") line) with
  | [] => none
  | p :: _ =>
    match (splitTab1 p).2 with
    | none => none
    | some participants =>
      match cleaned.filter (fun line => pyStartsWith (pyStr "@ID") line && line.contains ';') with
      | [] => none
      | a :: _ =>
        match (splitOnChar '|' a).filter (fun bit => bit.contains ';') with
        | [] => none
        | b :: _ => some (participants, b)

/-! ## transcript.py, `Transcript.get_age_in_days` (lines 73-83) -/

/-- Value of a decimal digit string (the numeric value `int()` computes). -/
def digitsVal (s : Str) : ℕ := s.foldl (fun a c => 10 * a + (c.toNat - '0'.toNat)) 0

/-- Python `int(s)`: optional surrounding whitespace, one optional sign, then
at least one decimal digit; anything else raises `ValueError`, modelled as
`none`. -/
def pyInt (s : Str) : Option ℤ :=
  let t := pyStrip s
  let core := if t.head? = some '+' ∨ t.head? = some '-' then t.tail else t
  let sgn : ℤ := if t.head? = some '-' then -1 else 1
  if core ≠ [] ∧ core.all Char.isDigit then some (sgn * digitsVal core) else none

/-- Lines 81-83 of `get_age_in_days`, as a function of the extracted age
field: `int(a.split(";")[0]) * 12 * 30 + int(a.split(";")[1].split(".")[0]) *
30 + int(a.split(";")[1].split(".")[1])`. -/
def age_in_days_of_field (age : Str) : Option ℤ := do
  let parts := splitOnChar ';' age
  let p0 ← parts[0]?
  let p1 ← parts[1]?
  let sub := splitOnChar '.' p1
  let s0 ← sub[0]?
  let s1 ← sub[1]?
  let y ← pyInt p0
  let m ← pyInt s0
  let d ← pyInt s1
  some (y * 12 * 30 + m * 30 + d)

/-- `Transcript.get_age_in_days` as a function of the raw recording lines. -/
def get_age_in_days (recording : List Str) : Option ℤ :=
  match get_participants_and_age recording with
  | none => none
  | some pa => age_in_days_of_field pa.2

/-! ## util.py, `tokenize` (lines 3-32) -/

/-- The default ignore list of `tokenize` (and `get_word_mlu`). -/
def list_of_strings_to_be_ignored : List Str :=
  [pyStr ",", pyStr ".", pyStr "?", pyStr "!", pyStr "(.)", pyStr "[?]"]

/-- Helper state for Python `text.split()` (split on whitespace runs, no empty
tokens): the input still to scan and the current word, reversed. -/
def wordsAux : Str → Str → List Str
  | [], cur => if cur = [] then [] else [cur.reverse]
  | c :: cs, cur =>
    if c.isWhitespace then
      if cur = [] then wordsAux cs [] else cur.reverse :: wordsAux cs []
    else wordsAux cs (c :: cur)

/-- Python `text.split()`. -/
def pyWords (text : Str) : List Str := wordsAux text []

/-- Python `cleaned[:-n]` for `n = len(ign)`.  Crucially, for `n = 0` the
Python expression is `cleaned[:-0] = cleaned[:0] = ""`, not `cleaned`. -/
def pySliceDropRight (s : Str) (n : ℕ) : Str :=
  if n = 0 then [] else s.take (s.length - n)

/-- `if cleaned.startswith(ign): cleaned = cleaned[len(ign):]; stripping = True`
on the state (current token, `stripping` flag). -/
def prefixStep (st : Str × Bool) (ign : Str) : Str × Bool :=
  if ign.isPrefixOf st.1 then (st.1.drop ign.length, true) else st

/-- `if cleaned.endswith(ign): cleaned = cleaned[:-len(ign)]; stripping = True`
on the state (current token, `stripping` flag). -/
def suffixStep (st : Str × Bool) (ign : Str) : Str × Bool :=
  if ign.isSuffixOf st.1 then (pySliceDropRight st.1 ign.length, true) else st

/-- One `for ign in list_of_strings_to_be_ignored` iteration of the stripping
loop: the prefix check on the current token, then the suffix check on the
updated token. -/
def passStep (st : Str × Bool) (ign : Str) : Str × Bool :=
  suffixStep (prefixStep st ign) ign

/-- One full iteration of the `while stripping and cleaned` loop body:
`stripping = False`, then the `for` loop over the ignore list. -/
def stripPass (igns : List Str) (c : Str) : Str × Bool :=
  igns.foldl passStep (c, false)

/-- The `while stripping and cleaned` loop, written with a fuel parameter so
that it is structurally recursive and computable by the kernel.  Each
continuing pass strictly shortens the token (proved in
`stripPass_shrink` below), so `c.length + 1` units of fuel always
suffice; `stripLoopFuel_congr` proves the result does not depend on
the fuel as long as it exceeds the token length. -/
def stripLoopFuel : ℕ → List Str → Str → Str
  | 0, _, c => c
  | fuel + 1, igns, c =>
    if c = [] then c
    else
      let r := stripPass igns c
      if r.2 = true ∧ r.1 ≠ [] then stripLoopFuel fuel igns r.1 else r.1

/-- The stripping loop of `tokenize` applied to one raw token. -/
def stripLoop (igns : List Str) (c : Str) : Str :=
  stripLoopFuel (c.length + 1) igns c

/-- util.py `tokenize`: split on whitespace, strip ignore-substrings from the
token edges, and keep the result only if it is non-empty and contains an
alphanumeric character. -/
def tokenize (text : Str) (igns : List Str) : List Str :=
  (pyWords text).filterMap fun raw =>
    let cleaned := stripLoop igns raw
    if cleaned ≠ [] ∧ cleaned.any Char.isAlphanum then some cleaned else none

/-! ## transcript.py, `Transcript.get_frequencies` (lines 205-251) -/

/-- The two exceptions `get_frequencies` can raise: the `IndexError`
propagated out of `get_structured_transcript` and the `ValueError` for an
unsupported match mode. -/
inductive FreqError where
  | indexError
  | invalidMatchMode
deriving DecidableEq, Repr

/-- The four supported match modes. -/
def allowed_match_types : List Str :=
  [pyStr "startswith", pyStr "contains", pyStr "endswith", pyStr "equals"]

/-- Python truthiness of the `pattern` argument (`None` and `""` are falsy). -/
def patternTruthy : Option Str → Bool
  | none => false
  | some p => !p.isEmpty

/-- Python `p in t` on strings: `p` occurs as a contiguous substring of `t`. -/
def pyInStr (p t : Str) : Bool := decide (p <:+: t)

/-- The `if pattern: ... continue` filter of the token loop: a token is kept
unless one of the four `elif` branches fires; an unrecognized `match_type`
(unreachable after the up-front check) falls through and keeps the token. -/
def tokenKeep (pattern : Option Str) (match_type : Str) (token : Str) : Bool :=
  match pattern with
  | none => true
  | some p =>
    if p.isEmpty then true
    else if match_type = pyStr "startswith" then p.isPrefixOf token
    else if match_type = pyStr "contains" then pyInStr p token
    else if match_type = pyStr "endswith" then p.isSuffixOf token
    else if match_type = pyStr "equals" then token == p
    else true

/-- `word_counts[token] += 1` / `= 1` on an insertion-ordered dict. -/
def word_counts_incr (d : List (Str × ℕ)) (k : Str) : List (Str × ℕ) :=
  if d.any (fun p => p.1 == k) then
    d.map (fun p => if p.1 == k then (p.1, p.2 + 1) else p)
  else d ++ [(k, 1)]

/-- Insert into a list already sorted by descending count, after all existing
entries with a greater-or-equal count (the stable order Python's
`sorted(..., reverse=True)` produces). -/
def insertByCountDesc (x : Str × ℕ) : List (Str × ℕ) → List (Str × ℕ)
  | [] => [x]
  | y :: ys => if x.2 ≤ y.2 then y :: insertByCountDesc x ys else x :: y :: ys

/-- `dict(sorted(word_counts.items(), key=lambda item: item[1], reverse=True))`. -/
def sortByCountDesc (l : List (Str × ℕ)) : List (Str × ℕ) :=
  l.foldl (fun acc x => insertByCountDesc x acc) []

/-- `Transcript.get_frequencies` as a function of the raw recording lines and
its four keyword arguments. -/
def get_frequencies (recording : List Str) (speaker tier : Str)
    (pattern : Option Str) (match_type : Str) : Except FreqError (List (Str × ℕ)) :=
  match get_structured_transcript recording with
  | none => .error .indexError
  | some st =>
    if patternTruthy pattern && !(allowed_match_types.contains match_type) then
      .error .invalidMatchMode
    else
      let filtered_segments := st.filter (fun el => el.speakerTier.any (fun p => p.1 == speaker))
      let word_counts := filtered_segments.foldl (fun wc el =>
        let text :=
          if tier = pyStr "utterance" then
            (((el.speakerTier.find? (fun p => p.1 == speaker)).map Prod.snd).getD [])
          else
            (((el.dependentTiers.find? (fun p => p.1 == tier)).map Prod.snd).getD [])
        (tokenize text list_of_strings_to_be_ignored).foldl (fun wc' token =>
          if tokenKeep pattern match_type token then word_counts_incr wc' token else wc') wc) []
      .ok (sortByCountDesc word_counts)

/-! ## transcript.py, `Transcript.compute_ttr_from_frequencies` (lines 253-269) -/

/-- Round-half-to-even of the exact ratio `N / D` (for `D > 0`), the rounding
Python's builtin `round` performs. -/
def roundHalfEvenNat (N D : ℕ) : ℕ :=
  if 2 * (N % D) < D then N / D
  else if D < 2 * (N % D) then N / D + 1
  else if (N / D) % 2 = 0 then N / D else N / D + 1

/-- `Transcript.compute_ttr_from_frequencies`:
`round(num_types / num_tokens, 2) if num_tokens > 0 else 0`, with the
two-decimal rounding of the ratio carried out exactly. -/
def compute_ttr_from_frequencies (frequency_dictionary : List (Str × ℕ)) : ℚ :=
  let num_types := frequency_dictionary.length
  let num_tokens := (frequency_dictionary.map Prod.snd).sum
  if num_tokens > 0 then (roundHalfEvenNat (100 * num_types) num_tokens : ℚ) / 100
  else 0

/-! ## Lemmas about the line merger -/

theorem getLastD_append_of_ne_nil (acc1 acc2 : List Str) (d : Str) (h : acc2 ≠ []) :
    (acc1 ++ acc2).getLastD d = acc2.getLastD d := by
  rcases List.eq_nil_or_concat acc2 with h2 | ⟨l', a, rfl⟩
  · exact absurd h2 h
  · rw [List.concat_eq_append, ← List.append_assoc, List.getLastD_concat,
      List.getLastD_concat]

/-- `cleanStep` only inspects and modifies the end of the accumulator, so a
non-empty accumulator can be split off from anything before it; moreover the
accumulator stays non-empty. -/
theorem cleanStep_append (acc1 acc2 : List Str) (y : Str) (h : acc2 ≠ []) :
    cleanStep (acc1 ++ acc2) y = acc1 ++ cleanStep acc2 y ∧ cleanStep acc2 y ≠ [] := by
  have hne : acc1 ++ acc2 ≠ [] := by simp [h]
  by_cases hm : isMarkerLine (pyStrip y) = true
  · constructor
    · simp [cleanStep, hm]
    · simp [cleanStep, hm]
  · constructor
    · simp only [cleanStep]
      simp [hm, h, hne, List.dropLast_append_of_ne_nil _ h,
        getLastD_append_of_ne_nil _ _ _ h, List.append_assoc]
      rcases List.eq_nil_or_concat acc2 with rfl | ⟨l', a, rfl⟩
      · exact absurd rfl h
      · simp [List.concat_eq_append]
    · simp [cleanStep, hm, h]

/-- Folding `cleanStep` over further lines distributes over a non-empty
accumulator suffix. -/
theorem foldl_cleanStep_append (ys : List Str) :
    ∀ acc1 acc2, acc2 ≠ [] →
      List.foldl cleanStep (acc1 ++ acc2) ys = acc1 ++ List.foldl cleanStep acc2 ys := by
  induction ys with
  | nil => intro acc1 acc2 _; rfl
  | cons y ys ih =>
    intro acc1 acc2 h
    obtain ⟨h1, h2⟩ := cleanStep_append acc1 acc2 y h
    simp only [List.foldl_cons, h1]
    exact ih _ _ h2

/-! ## Lemmas about the utterance parser -/

/-- The accumulator of `parseLoop` is a prefix of any successful result. -/
theorem parseLoop_acc_prefix (ls : List Str) :
    ∀ acc cur cnt out, parseLoop ls acc cur cnt = some out → ∃ s, out = acc ++ s := by
  induction ls with
  | nil =>
    intro acc cur cnt out h
    simp only [parseLoop] at h
    split at h
    · exact ⟨[cur], (Option.some_inj.mp h).symm⟩
    · exact ⟨[], by simp [← Option.some_inj.mp h]⟩
  | cons l ls ih =>
    intro acc cur cnt out h
    simp only [parseLoop] at h
    split at h
    · split at h
      · exact absurd h (by simp)
      · split at h
        · obtain ⟨s, hs⟩ := ih _ _ _ _ h
          exact ⟨cur :: s, by simp [hs]⟩
        · exact ih _ _ _ _ h
    · split at h
      · split at h
        · exact absurd h (by simp)
        · exact ih _ _ _ _ h
      · exact ih _ _ _ _ h

/-- `dictUpdate` never removes a key. -/
theorem dictUpdate_keys_mono {d : List (Str × Str)} {k' : Str} (k v : Str)
    (h : k' ∈ d.map Prod.fst) : k' ∈ (dictUpdate d k v).map Prod.fst := by
  unfold dictUpdate
  split
  · have : (d.map fun p => if p.1 == k then (p.1, v) else p).map Prod.fst = d.map Prod.fst := by
      rw [List.map_map]
      refine List.map_congr_left ?_
      intro p _
      simp only [Function.comp_apply]
      split <;> rfl
    rw [this]; exact h
  · simp only [List.map_append]
    exact List.mem_append_left _ h

/-- `dictUpdate` always leaves the inserted key present. -/
theorem dictUpdate_mem_keys (d : List (Str × Str)) (k v : Str) :
    k ∈ (dictUpdate d k v).map Prod.fst := by
  unfold dictUpdate
  split
  <;> rename_i hany
  · obtain ⟨p, hp, hpk⟩ := List.any_eq_true.mp hany
    have hk : p.1 = k := by simpa using hpk
    rw [List.map_map]
    refine List.mem_map.mpr ⟨p, hp, ?_⟩
    simp [Function.comp, hpk, hk]
  · simp

/-- Processing a run of body lines none of which is dispatched to the
speaker branch (no `*` before the first tab) neither emits an utterance nor
drops any key of the in-progress dependent tiers: when it does not raise, the
parse continues on the remaining lines with the same accumulator and counter
and an entry whose dependent-tier keys contain all current ones. -/
theorem parseLoop_append_no_star (xs : List Str) :
    ∀ ys acc cur cnt,
      (∀ p ∈ xs, (splitTab1 p).1.contains '*' = false) →
      parseLoop (xs ++ ys) acc cur cnt = none ∨
      ∃ cur', parseLoop (xs ++ ys) acc cur cnt = parseLoop ys acc cur' cnt ∧
        ∀ k, k ∈ cur.dependentTiers.map Prod.fst →
          k ∈ cur'.dependentTiers.map Prod.fst := by
  induction xs with
  | nil =>
    intro ys acc cur cnt _
    exact Or.inr ⟨cur, rfl, fun k hk => hk⟩
  | cons x xs ih =>
    intro ys acc cur cnt hstar
    have hx : (splitTab1 x).1.contains '*' = false := hstar x (List.mem_cons_self _ _)
    have hxs : ∀ p ∈ xs, (splitTab1 p).1.contains '*' = false :=
      fun p hp => hstar p (List.mem_cons_of_mem _ hp)
    simp only [List.cons_append, parseLoop]
    rw [if_neg (by rw [hx]; simp)]
    by_cases hp : (splitTab1 x).1.contains '%' = true
    · rw [if_pos hp]
      cases h2 : (splitTab1 x).2 with
      | none => exact Or.inl rfl
      | some t =>
        rcases ih ys acc
            { cur with dependentTiers :=
                dictUpdate cur.dependentTiers (stripColons (splitTab1 x).1) t }
            cnt hxs with hnone | ⟨cur', heq, hmono⟩
        · exact Or.inl hnone
        · exact Or.inr ⟨cur', heq,
            fun k hk => hmono k (dictUpdate_keys_mono _ _ hk)⟩
    · rw [if_neg hp]
      exact ih ys acc cur cnt hxs

/-- Any key present in the current entry's dependent tiers is still present in
the first utterance emitted by the rest of the parse (the parser never clears
the in-progress dependent tiers before the first finalization). -/
theorem parseLoop_head_keys (ls : List Str) :
    ∀ cur cnt out e k, k ∈ cur.dependentTiers.map Prod.fst →
      parseLoop ls [] cur cnt = some out → out.head? = some e →
      k ∈ e.dependentTiers.map Prod.fst := by
  induction ls with
  | nil =>
    intro cur cnt out e k hk h hh
    simp only [parseLoop] at h
    split at h
    · rw [← Option.some_inj.mp h] at hh
      simp only [List.nil_append, List.head?_cons, Option.some_inj] at hh
      rwa [← hh]
    · rw [← Option.some_inj.mp h] at hh
      simp at hh
  | cons l ls ih =>
    intro cur cnt out e k hk h hh
    simp only [parseLoop] at h
    split at h
    · split at h
      · exact absurd h (by simp)
      · split at h
        · -- finalization: the current entry becomes the head of the output
          obtain ⟨s, hs⟩ := parseLoop_acc_prefix _ _ _ _ _ h
          rw [hs] at hh
          simp only [List.nil_append, List.cons_append, List.head?_cons, Option.some_inj] at hh
          rwa [← hh]
        · refine ih _ _ _ _ _ ?_ h hh
          simpa using hk
    · split at h
      · split at h
        · exact absurd h (by simp)
        · exact ih _ _ _ _ _ (dictUpdate_keys_mono _ _ hk) h hh
      · exact ih _ _ _ _ _ hk h hh

/-- Every entry the parser appends before the end of input has a non-empty
speaker tier; the final flush can additionally append one entry that has a
non-empty speaker tier or non-empty dependent tiers. -/
theorem parseLoop_speaker_invariant (ls : List Str) :
    ∀ acc cur cnt out, (∀ e ∈ acc, e.speakerTier ≠ []) →
      parseLoop ls acc cur cnt = some out →
      (∀ e ∈ out.dropLast, e.speakerTier ≠ []) ∧
      (∀ e ∈ out, e.speakerTier ≠ [] ∨ e.dependentTiers ≠ []) := by
  induction ls with
  | nil =>
    intro acc cur cnt out hacc h
    simp only [parseLoop] at h
    split at h
    <;> rename_i hcond
    · rw [← Option.some_inj.mp h]
      constructor
      · rw [List.dropLast_concat]
        exact hacc
      · intro e he
        rcases List.mem_append.mp he with h1 | h1
        · exact Or.inl (hacc e h1)
        · rw [List.mem_singleton.mp h1]
          exact hcond
    · rw [← Option.some_inj.mp h]
      constructor
      · intro e he
        exact hacc e ((List.dropLast_sublist _).subset he)
      · intro e he
        exact Or.inl (hacc e he)
  | cons l ls ih =>
    intro acc cur cnt out hacc h
    simp only [parseLoop] at h
    split at h
    · split at h
      · exact absurd h (by simp)
      · split at h
        <;> rename_i hcur
        · refine ih _ _ _ _ ?_ h
          intro e he
          rcases List.mem_append.mp he with h1 | h1
          · exact hacc e h1
          · rw [List.mem_singleton.mp h1]
            exact hcur
        · exact ih _ _ _ _ hacc h
    · split at h
      · split at h
        · exact absurd h (by simp)
        · exact ih _ _ _ _ hacc h
      · exact ih _ _ _ _ hacc h

/-! ## Claims C1-C3 -/

/-- C1: for the merged lines `["*CHI:\thello world .", "%mor:\tn|hello n|world"]`
the returned single utterance has speaker tier `{"*CHI": "hello world ."}` and
dependent tiers `{"%mor": "n|hello n|world"}` as claimed, but its id is `None`,
not `1`: the initial entry is created with `id=None` and a numeric id is only
assigned when a previous utterance is finalized, contradicting the function's
own docstring ("id": an integer starting from 1). -/
theorem C1_first_utterance_id_is_none :
    structuredFromMerged [pyStr "*CHI:\thello world .", pyStr "%mor:\tn|hello n|world"] =
      some [{ id := none,
              speakerTier := [(pyStr "*CHI", pyStr "hello world .")],
              dependentTiers := [(pyStr "%mor", pyStr "n|hello n|world")] }] := by
  decide

/-- C2, counterexample: on the input `["%mor:\tfoo"]` the function emits a
record whose speaker tier is empty (the final flush also fires when only
dependent tiers are present), refuting the claim that every emitted record has
a non-empty speaker tier. -/
theorem C2_counterexample :
    get_structured_transcript [pyStr "%mor:\tfoo"] =
      some [{ id := none, speakerTier := [],
              dependentTiers := [(pyStr "%mor", pyStr "foo")] }] ∧
    ({ id := none, speakerTier := [],
       dependentTiers := [(pyStr "%mor", pyStr "foo")] } : Utterance).speakerTier = [] := by
  constructor
  · decide
  · rfl

/-- C2, amended: in every successful result of `get_structured_transcript`,
every record except possibly the last has a non-empty speaker tier, and every
record has a non-empty speaker tier or non-empty dependent tiers; trailing
dependent-only data with no speaker line is emitted as a final dependent-only
record rather than dropped. -/
theorem C2_amended (recording : List Str) (out : List Utterance)
    (h : get_structured_transcript recording = some out) :
    (∀ e ∈ out.dropLast, e.speakerTier ≠ []) ∧
    (∀ e ∈ out, e.speakerTier ≠ [] ∨ e.dependentTiers ≠ []) := by
  exact parseLoop_speaker_invariant _ _ _ _ _ (by intro e he; simp at he) h

/-- C2, witness for the amended theorem at a concrete input: the non-final
record of a two-utterance parse has a non-empty speaker tier. -/
theorem C2_amended_witness :
    ({ id := none, speakerTier := [(pyStr "*CHI", pyStr "a")], dependentTiers := [] }
      : Utterance).speakerTier.isEmpty = false := by
  have h := C2_amended [pyStr "*CHI:\ta", pyStr "*MOT:\tb"]
    [{ id := none, speakerTier := [(pyStr "*CHI", pyStr "a")], dependentTiers := [] },
     { id := some 2, speakerTier := [(pyStr "*MOT", pyStr "b")], dependentTiers := [] }]
    (by decide)
  have h2 := h.1
    { id := none, speakerTier := [(pyStr "*CHI", pyStr "a")], dependentTiers := [] }
    (by decide)
  cases hh : ({ id := none, speakerTier := [(pyStr "*CHI", pyStr "a")], dependentTiers := [] } : Utterance).speakerTier.isEmpty
  · rfl
  · exact absurd (List.isEmpty_iff.mp hh) h2

/-- C3, counterexample: with the annotation line `"%mor:\tfoo"` preceding the
first speaker line `"*CHI:\thi"`, the pair `("%mor", "foo")` is not discarded:
it appears in the first (and only) emitted utterance's dependent tiers. -/
theorem C3_counterexample :
    get_structured_transcript [pyStr "%mor:\tfoo", pyStr "*CHI:\thi"] =
      some [{ id := none, speakerTier := [(pyStr "*CHI", pyStr "hi")],
              dependentTiers := [(pyStr "%mor", pyStr "foo")] }] ∧
    (pyStr "%mor", pyStr "foo") ∈
      ({ id := none, speakerTier := [(pyStr "*CHI", pyStr "hi")],
         dependentTiers := [(pyStr "%mor", pyStr "foo")] } : Utterance).dependentTiers := by
  constructor
  · decide
  · decide

/-- C3, amended: every annotation line preceding the first speaker line is
not discarded: its marker is inserted into the in-progress entry's dependent
tiers and still appears among the dependent-tier markers of the first emitted
record (its text may be overwritten by a later line with the same marker).
The line may sit anywhere in the merged sequence — after header lines and
after other leading annotation lines — as long as no body line before it is
dispatched to the speaker branch (`"*" in line_parts[0]`); instantiating `l`
at each leading annotation line in turn covers them all. -/
theorem C3_amended (pre : List Str) (l t : Str) (rest : List Str)
    (out : List Utterance) (e : Utterance)
    (hpre : ∀ p ∈ pre,
      (pyStartsWith (pyStr "*") p || pyStartsWith (pyStr "%") p) = true →
      (splitTab1 p).1.contains '*' = false)
    (h1 : pyStartsWith (pyStr "%") l = true)
    (h2 : (splitTab1 l).1.contains '*' = false)
    (h3 : (splitTab1 l).2 = some t)
    (h4 : structuredFromMerged (pre ++ l :: rest) = some out)
    (h5 : out.head? = some e) :
    stripColons (splitTab1 l).1 ∈ e.dependentTiers.map Prod.fst := by
  -- the annotation line survives the body filter and takes the `%` branch
  have hpct : (splitTab1 l).1.contains '%' = true := by
    rcases l with _ | ⟨c, cs⟩
    · simp [pyStartsWith, pyStr, List.isPrefixOf] at h1
    · have hc : c = '%' := by
        simp [pyStartsWith, pyStr, List.isPrefixOf] at h1
        exact h1.symm
      subst hc
      simp [splitTab1, List.takeWhile]
      split <;> simp_all [List.contains]
  unfold structuredFromMerged at h4
  rw [List.filter_append, List.filter_cons, if_pos (by simp [h1])] at h4
  have hfp : ∀ p ∈ pre.filter
      (fun bit => pyStartsWith (pyStr "*") bit || pyStartsWith (pyStr "%") bit),
      (splitTab1 p).1.contains '*' = false := by
    intro p hp
    have hm := List.mem_filter.mp hp
    exact hpre p hm.1 hm.2
  rcases parseLoop_append_no_star _ _ _ _ _ hfp with hnone | ⟨cur', heq, -⟩
  · rw [hnone] at h4
    exact absurd h4 (by simp)
  · rw [heq] at h4
    rw [parseLoop] at h4
    have h2' : ¬ (List.contains (splitTab1 l).1 '*' = true) := by rw [h2]; simp
    rw [if_neg h2', if_pos hpct, h3] at h4
    exact parseLoop_head_keys _ _ _ _ _ _ (dictUpdate_mem_keys _ _ _) h4 h5

/-- C3, witness for the amended theorem at a concrete input with a header
line preceding the annotation line. -/
theorem C3_amended_witness :
    stripColons (splitTab1 (pyStr "%mor:\tfoo")).1 ∈
      ({ id := none, speakerTier := [(pyStr "*CHI", pyStr "hi")],
         dependentTiers := [(pyStr "%mor", pyStr "foo")] } : Utterance).dependentTiers.map Prod.fst := by
  exact C3_amended [pyStr "@Participants\tCHI Child"] (pyStr "%mor:\tfoo")
    (pyStr "foo") [pyStr "*CHI:\thi"]
    [{ id := none, speakerTier := [(pyStr "*CHI", pyStr "hi")],
       dependentTiers := [(pyStr "%mor", pyStr "foo")] }]
    { id := none, speakerTier := [(pyStr "*CHI", pyStr "hi")],
      dependentTiers := [(pyStr "%mor", pyStr "foo")] }
    (by decide) (by decide) (by decide) (by decide) (by decide) rfl

/-! ## Lemmas about `splitOnChar` -/

theorem splitOnChar_ne_nil (sep : Char) (l : Str) : splitOnChar sep l ≠ [] := by
  cases l with
  | nil => simp [splitOnChar]
  | cons c cs =>
    simp only [splitOnChar]
    split
    · simp
    · split <;> simp

/-- Every character of the input other than the separator ends up in some
piece of the split. -/
theorem exists_mem_splitOnChar (sep : Char) (l : Str) (c : Char)
    (hc : c ∈ l) (hne : c ≠ sep) : ∃ p ∈ splitOnChar sep l, c ∈ p := by
  induction l with
  | nil => simp at hc
  | cons x xs ih =>
    by_cases hx : x = sep
    · subst hx
      have hcx : c ∈ xs := by
        rcases List.mem_cons.mp hc with rfl | h
        · exact absurd rfl hne
        · exact h
      obtain ⟨p, hp, hcp⟩ := ih hcx
      exact ⟨p, by simp [splitOnChar, hp], hcp⟩
    · rcases hsp : splitOnChar sep xs with _ | ⟨p0, ps⟩
      · exact absurd hsp (splitOnChar_ne_nil sep xs)
      · rcases List.mem_cons.mp hc with rfl | hcxs
        · exact ⟨c :: p0, by simp [splitOnChar, hx, hsp], List.mem_cons_self _ _⟩
        · obtain ⟨p, hp, hcp⟩ := ih hcxs
          rw [hsp] at hp
          rcases List.mem_cons.mp hp with rfl | hps
          · exact ⟨x :: p, by simp [splitOnChar, hx, hsp], List.mem_cons_of_mem _ hcp⟩
          · exact ⟨p, by simp [splitOnChar, hx, hsp, hps], hcp⟩

/-- An `@ID` line that contains a semicolon always yields at least one
`|`-separated field containing a semicolon — the final indexing of
`get_participants_and_age` cannot fail. -/
theorem filter_semicolon_ne_nil (a : Str) (h : a.contains ';' = true) :
    (splitOnChar '|' a).filter (fun bit => bit.contains ';') ≠ [] := by
  have hmem : (';' : Char) ∈ a := by simpa using h
  obtain ⟨p, hp, hcp⟩ := exists_mem_splitOnChar '|' a ';' hmem (by decide)
  intro hnil
  have hall := List.filter_eq_nil_iff.mp hnil p hp
  simp at hall
  exact hall hcp

/-! ## Claim C6 -/

/-- C6, counterexample: the merged lines contain both a line starting with
`@Participants` and a line starting with `@ID` containing `;`, yet
`get_participants_and_age` still fails, because the `@Participants` line has
no tab and `split('\t', 1)[1]` raises `IndexError`. -/
theorem C6_counterexample :
    (∃ line ∈ get_cleaned_transcript [pyStr "@Participants no tab", pyStr "@ID|2;3|"],
      pyStartsWith (pyStr "@Participants") line = true) ∧
    (∃ line ∈ get_cleaned_transcript [pyStr "@Participants no tab", pyStr "@ID|2;3|"],
      pyStartsWith (pyStr "@ID") line = true ∧ line.contains ';' = true) ∧
    get_participants_and_age [pyStr "@Participants no tab", pyStr "@ID|2;3|"] = none := by
  refine ⟨?_, ?_, ?_⟩
  · decide
  · decide
  · decide

/-- C6, amended: `get_participants_and_age` fails if and only if the merged
lines contain no line starting with `@Participants`, or the first such line
contains no tab, or there is no line starting with `@ID` that contains `;`.
Whenever none of these hold, it returns the text after the first tab of the
first `@Participants` line together with the first `|`-separated field
containing `;` of the first qualifying `@ID` line. -/
theorem C6_amended (recording : List Str) :
    (get_participants_and_age recording = none ↔
      ((get_cleaned_transcript recording).filter
          (fun line => pyStartsWith (pyStr "@Participants") line) = [] ∨
        (∃ p ps, (get_cleaned_transcript recording).filter
            (fun line => pyStartsWith (pyStr "@Participants") line) = p :: ps ∧
          (splitTab1 p).2 = none) ∨
        (get_cleaned_transcript recording).filter
          (fun line => pyStartsWith (pyStr "@ID") line && line.contains ';') = [])) ∧
    (∀ p ps t a as,
      (get_cleaned_transcript recording).filter
          (fun line => pyStartsWith (pyStr "@Participants") line) = p :: ps →
      (splitTab1 p).2 = some t →
      (get_cleaned_transcript recording).filter
          (fun line => pyStartsWith (pyStr "@ID") line && line.contains ';') = a :: as →
      ∃ b bs, (splitOnChar '|' a).filter (fun bit => bit.contains ';') = b :: bs ∧
        get_participants_and_age recording = some (t, b)) := by
  cases hfp : (get_cleaned_transcript recording).filter
      (fun line => pyStartsWith (pyStr "@Participants") line) with
  | nil =>
    constructor
    · simp [get_participants_and_age, hfp]
    · intro p ps t a as hp _ _
      exact absurd hp (by simp)
  | cons p ps =>
    cases htab : (splitTab1 p).2 with
    | none =>
      constructor
      · constructor
        · intro _
          exact Or.inr (Or.inl ⟨p, ps, rfl, htab⟩)
        · intro _
          simp [get_participants_and_age, hfp, htab]
      · intro p' ps' t a as hp' ht' _
        injection hp' with e1 _
        rw [← e1] at ht'
        rw [htab] at ht'
        exact absurd ht' (by simp)
    | some t0 =>
      cases hfa : (get_cleaned_transcript recording).filter
          (fun line => pyStartsWith (pyStr "@ID") line && line.contains ';') with
      | nil =>
        constructor
        · constructor
          · intro _
            exact Or.inr (Or.inr rfl)
          · intro _
            simp only [get_participants_and_age, hfp, htab, hfa]
        · intro p' ps' t a as _ _ ha'
          exact absurd ha' (by simp)
      | cons a as =>
        have hacontains : a.contains ';' = true := by
          have hmem : a ∈ (get_cleaned_transcript recording).filter
              (fun line => pyStartsWith (pyStr "@ID") line && line.contains ';') := by
            rw [hfa]
            exact List.mem_cons_self _ _
          exact Bool.and_elim_right (List.mem_filter.mp hmem).2
        obtain ⟨b, bs, hbs⟩ :=
          List.exists_cons_of_ne_nil (filter_semicolon_ne_nil a hacontains)
        have hsome : get_participants_and_age recording = some (t0, b) := by
          simp only [get_participants_and_age, hfp, htab, hfa, hbs]
        constructor
        · constructor
          · intro hnone
            rw [hsome] at hnone
            exact absurd hnone (by simp)
          · rintro (h1 | ⟨p', ps', hp', ht'⟩ | h3)
            · exact absurd h1 (by simp)
            · injection hp' with e1 _
              rw [← e1] at ht'
              rw [htab] at ht'
              exact absurd ht' (by simp)
            · exact absurd h3 (by simp)
        · intro p' ps' t a' as' hp' ht' ha'
          injection hp' with e1 _
          rw [← e1] at ht'
          rw [htab] at ht'
          injection ht' with e3
          injection ha' with e4 _
          subst e3
          rw [← e4]
          exact ⟨b, bs, hbs, hsome⟩

/-- C6, witness for the amended theorem at a concrete input. -/
theorem C6_amended_witness :
    ∃ b bs, (splitOnChar '|' (pyStr "@ID|2;3.15|")).filter
        (fun bit => bit.contains ';') = b :: bs ∧
      get_participants_and_age [pyStr "@Participants\tCHI Child", pyStr "@ID|2;3.15|"] =
        some (pyStr "CHI Child", b) :=
  (C6_amended _).2 (pyStr "@Participants\tCHI Child") [] (pyStr "CHI Child")
    (pyStr "@ID|2;3.15|") [] (by decide) (by decide) (by decide)

/-! ## Claim C7 -/

/-- Splitting at the first separator occurrence, when the prefix is free of
the separator. -/
theorem splitOnChar_append_cons (sep : Char) (pre rest : Str)
    (h : ∀ c ∈ pre, c ≠ sep) :
    splitOnChar sep (pre ++ sep :: rest) = pre :: splitOnChar sep rest := by
  induction pre with
  | nil => simp [splitOnChar]
  | cons x xs ih =>
    have hx : x ≠ sep := h x (List.mem_cons_self _ _)
    have ih' := ih (fun c hc => h c (List.mem_cons_of_mem _ hc))
    simp only [List.cons_append, splitOnChar, if_neg hx, List.append_eq, ih']

/-- A string free of the separator splits into a single piece. -/
theorem splitOnChar_of_not_mem (sep : Char) (l : Str) (h : ∀ c ∈ l, c ≠ sep) :
    splitOnChar sep l = [l] := by
  induction l with
  | nil => rfl
  | cons x xs ih =>
    have hx : x ≠ sep := h x (List.mem_cons_self _ _)
    have ih' := ih (fun c hc => h c (List.mem_cons_of_mem _ hc))
    simp only [splitOnChar, if_neg hx, ih']

/-- A decimal digit is not whitespace. -/
theorem isDigit_not_ws (c : Char) (h : c.isDigit = true) : c.isWhitespace = false := by
  by_contra hws
  rw [Bool.not_eq_false] at hws
  simp [Char.isWhitespace] at hws
  have hws' : c = ' ' ∨ c = '\t' ∨ c = '\r' ∨ c = '\n' := by tauto
  rcases hws' with rfl | rfl | rfl | rfl <;> exact absurd h (by decide)

/-- A decimal digit differs from any non-digit character. -/
theorem isDigit_ne (c : Char) (h : c.isDigit = true) (d : Char)
    (hd : d.isDigit = false) : c ≠ d := by
  intro e
  rw [e, hd] at h
  exact absurd h (by simp)

/-- `strip()` leaves a whitespace-free string unchanged. -/
theorem pyStrip_eq_self (s : Str) (h : ∀ c ∈ s, c.isWhitespace = false) :
    pyStrip s = s := by
  unfold pyStrip
  have h1 : s.dropWhile Char.isWhitespace = s := by
    cases s with
    | nil => rfl
    | cons x xs => simp [List.dropWhile_cons, h x (List.mem_cons_self _ _)]
  rw [h1]
  have h2 : s.reverse.dropWhile Char.isWhitespace = s.reverse := by
    cases hs : s.reverse with
    | nil => rfl
    | cons x xs =>
      have hx : x ∈ s := by
        rw [← List.mem_reverse, hs]
        exact List.mem_cons_self _ _
      simp [List.dropWhile_cons, h x hx]
  rw [h2, List.reverse_reverse]

/-- `int()` on a non-empty all-digit string returns its decimal value. -/
theorem pyInt_digits (s : Str) (hne : s ≠ []) (hd : s.all Char.isDigit = true) :
    pyInt s = some (digitsVal s : ℤ) := by
  have hall : ∀ c ∈ s, c.isDigit = true := by
    simpa [List.all_eq_true] using hd
  have hstrip : pyStrip s = s :=
    pyStrip_eq_self s (fun c hc => isDigit_not_ws c (hall c hc))
  rcases s with _ | ⟨c, cs⟩
  · exact absurd rfl hne
  · have hc := hall c (List.mem_cons_self _ _)
    have hplus : ¬(c = '+') := by
      rintro rfl
      exact absurd hc (by decide)
    have hminus : ¬(c = '-') := by
      rintro rfl
      exact absurd hc (by decide)
    have hcond : ¬(c = '+' ∨ c = '-') := by
      rintro (e | e)
      · exact hplus e
      · exact hminus e
    simp only [pyInt, hstrip, List.head?_cons, Option.some.injEq, if_neg hcond,
      if_neg hminus]
    rw [if_pos ⟨by simp, hd⟩, one_mul]

/-- C7: for every well-formed age field `Y;M.D` with decimal-digit components,
the age computation of `get_age_in_days` returns `Y*360 + M*30 + D` (the code
computes `Y*12*30`, and a month is approximated as 30 days). -/
theorem C7_age_in_days (ys ms ds : Str)
    (hy : ys ≠ []) (hm : ms ≠ []) (hd : ds ≠ [])
    (hyd : ys.all Char.isDigit = true) (hmd : ms.all Char.isDigit = true)
    (hdd : ds.all Char.isDigit = true) :
    age_in_days_of_field (ys ++ ';' :: (ms ++ '.' :: ds)) =
      some ((digitsVal ys : ℤ) * 360 + (digitsVal ms : ℤ) * 30 + (digitsVal ds : ℤ)) := by
  have hys : ∀ c ∈ ys, c.isDigit = true := by simpa [List.all_eq_true] using hyd
  have hms : ∀ c ∈ ms, c.isDigit = true := by simpa [List.all_eq_true] using hmd
  have hds : ∀ c ∈ ds, c.isDigit = true := by simpa [List.all_eq_true] using hdd
  have h1 : splitOnChar ';' (ys ++ ';' :: (ms ++ '.' :: ds)) =
      ys :: splitOnChar ';' (ms ++ '.' :: ds) :=
    splitOnChar_append_cons ';' ys _ (fun c hc => isDigit_ne c (hys c hc) ';' (by decide))
  have h2 : splitOnChar ';' (ms ++ '.' :: ds) = [ms ++ '.' :: ds] := by
    refine splitOnChar_of_not_mem ';' _ (fun c hc => ?_)
    rcases List.mem_append.mp hc with hcm | hcd
    · exact isDigit_ne c (hms c hcm) ';' (by decide)
    · rcases List.mem_cons.mp hcd with rfl | hcd'
      · decide
      · exact isDigit_ne c (hds c hcd') ';' (by decide)
  have h3 : splitOnChar '.' (ms ++ '.' :: ds) = ms :: splitOnChar '.' ds :=
    splitOnChar_append_cons '.' ms ds (fun c hc => isDigit_ne c (hms c hc) '.' (by decide))
  have h4 : splitOnChar '.' ds = [ds] :=
    splitOnChar_of_not_mem '.' ds (fun c hc => isDigit_ne c (hds c hc) '.' (by decide))
  simp only [age_in_days_of_field, h1, h2, h3, h4,
    pyInt_digits ys hy hyd, pyInt_digits ms hm hmd, pyInt_digits ds hd hdd,
    List.getElem?_cons_zero, List.getElem?_cons_succ, Option.bind_eq_bind,
    Option.some_bind, Option.some_inj]
  ring

/-- C7, witness: the age field `"2;3.15"` yields `2*360 + 3*30 + 15 = 825`
days. -/
theorem C7_age_in_days_witness :
    age_in_days_of_field (pyStr "2;3.15") = some 825 := by
  have he : pyStr "2;3.15" = pyStr "2" ++ ';' :: (pyStr "3" ++ '.' :: pyStr "15") := by
    decide
  rw [he, C7_age_in_days (pyStr "2") (pyStr "3") (pyStr "15")
    (by decide) (by decide) (by decide) (by decide) (by decide) (by decide)]
  decide

/-! ## Lemmas about the tokenizer -/

theorem nil_isPrefixOf (l : Str) : List.isPrefixOf ([] : Str) l = true := by
  cases l <;> rfl

theorem nil_isSuffixOf (l : Str) : List.isSuffixOf ([] : Str) l = true := by
  show List.isPrefixOf ([] : Str).reverse l.reverse = true
  exact nil_isPrefixOf l.reverse

theorem cons_isPrefixOf_nil (i : Char) (is : Str) :
    List.isPrefixOf (i :: is) ([] : Str) = false := rfl

theorem cons_isSuffixOf_nil (i : Char) (is : Str) :
    List.isSuffixOf (i :: is) ([] : Str) = false := by
  show List.isPrefixOf (i :: is).reverse ([] : Str).reverse = false
  cases h : (i :: is).reverse with
  | nil => exact absurd h (by simp)
  | cons a b => rfl

/-- The pass with an empty-string ignore entry turns any state into
`("", True)`: both edge checks match and the suffix strip is `cleaned[:-0]`,
the empty string. -/
theorem passStep_nil_ign (st : Str × Bool) : passStep st [] = ([], true) := by
  simp [passStep, prefixStep, suffixStep, nil_isPrefixOf, nil_isSuffixOf,
    pySliceDropRight]

/-- Once the token is empty it stays empty through the rest of the pass. -/
theorem passStep_fst_nil (st : Str × Bool) (ign : Str) (h : st.1 = []) :
    (passStep st ign).1 = [] := by
  rcases ign with _ | ⟨i, is⟩
  · rw [passStep_nil_ign]
  · have h1 : prefixStep st (i :: is) = st := by
      unfold prefixStep
      rw [if_neg (by rw [h, cons_isPrefixOf_nil]; simp)]
    unfold passStep suffixStep
    rw [h1, if_neg (by rw [h, cons_isSuffixOf_nil]; simp)]
    exact h

theorem foldl_passStep_fst_nil (igns : List Str) :
    ∀ st : Str × Bool, st.1 = [] → (igns.foldl passStep st).1 = [] := by
  induction igns with
  | nil => intro st h; exact h
  | cons ign igns ih =>
    intro st h
    exact ih _ (passStep_fst_nil st ign h)

/-- A firing prefix strip with a non-empty ignore string strictly shortens the
token. -/
theorem prefixStep_cases (st : Str × Bool) (i : Char) (is : Str) :
    prefixStep st (i :: is) = st ∨
      (prefixStep st (i :: is)).1.length < st.1.length := by
  unfold prefixStep
  split
  <;> rename_i hc
  · refine Or.inr ?_
    have hne : st.1 ≠ [] := by
      intro h
      rw [h, cons_isPrefixOf_nil] at hc
      exact absurd hc (by simp)
    have h0 : 0 < st.1.length := List.length_pos.mpr hne
    simp only [List.length_drop, List.length_cons]
    omega
  · exact Or.inl rfl

/-- A firing suffix strip with a non-empty ignore string strictly shortens the
token. -/
theorem suffixStep_cases (st : Str × Bool) (i : Char) (is : Str) :
    suffixStep st (i :: is) = st ∨
      (suffixStep st (i :: is)).1.length < st.1.length := by
  unfold suffixStep
  split
  <;> rename_i hc
  · refine Or.inr ?_
    have hne : st.1 ≠ [] := by
      intro h
      rw [h, cons_isSuffixOf_nil] at hc
      exact absurd hc (by simp)
    have h0 : 0 < st.1.length := List.length_pos.mpr hne
    unfold pySliceDropRight
    rw [if_neg (by simp)]
    simp only [List.length_take, List.length_cons]
    omega
  · exact Or.inl rfl

/-- One iteration of the stripping pass either does nothing, strictly shortens
the token, or empties it (the last case covers the empty ignore string, whose
suffix strip is Python's `cleaned[:-0] = ""`). -/
theorem passStep_cases (st : Str × Bool) (ign : Str) :
    passStep st ign = st ∨ (passStep st ign).1.length < st.1.length ∨
      (passStep st ign).1 = [] := by
  rcases ign with _ | ⟨i, is⟩
  · rw [passStep_nil_ign]
    exact Or.inr (Or.inr rfl)
  · unfold passStep
    rcases prefixStep_cases st i is with heq | hlt
    · rw [heq]
      rcases suffixStep_cases st i is with heq2 | hlt2
      · exact Or.inl heq2
      · exact Or.inr (Or.inl hlt2)
    · rcases suffixStep_cases (prefixStep st (i :: is)) i is with heq2 | hlt2
      · rw [heq2]
        exact Or.inr (Or.inl hlt)
      · exact Or.inr (Or.inl (lt_trans hlt2 hlt))

/-- A full pass either leaves the state unchanged or strictly shortens a
(still non-empty) token. -/
theorem foldl_passStep_cases (igns : List Str) :
    ∀ st : Str × Bool, (igns.foldl passStep st).1 ≠ [] →
      igns.foldl passStep st = st ∨
        (igns.foldl passStep st).1.length < st.1.length := by
  induction igns with
  | nil => intro st _; exact Or.inl rfl
  | cons ign igns ih =>
    intro st hne
    simp only [List.foldl_cons] at hne ⊢
    rcases passStep_cases st ign with heq | hlt | hnil
    · rw [heq] at hne ⊢
      exact ih st hne
    · rcases ih (passStep st ign) hne with heq2 | hlt2
      · rw [heq2]
        exact Or.inr hlt
      · exact Or.inr (lt_trans hlt2 hlt)
    · exact absurd (foldl_passStep_fst_nil igns _ hnil) hne

/-- A continuing pass (`stripping` still set, token still non-empty) strictly
shortens the token: the while loop terminates within `length + 1` passes. -/
theorem stripPass_shrink (igns : List Str) (c : Str)
    (h2 : (stripPass igns c).2 = true) (h1 : (stripPass igns c).1 ≠ []) :
    (stripPass igns c).1.length < c.length := by
  unfold stripPass at h2 h1 ⊢
  rcases foldl_passStep_cases igns (c, false) h1 with heq | hlt
  · rw [heq] at h2
    exact absurd h2 (by simp)
  · exact hlt

/-- The result of the fueled while loop does not depend on the fuel, provided
the fuel exceeds the token length. -/
theorem stripLoopFuel_congr :
    ∀ f1 f2 igns (c : Str), c.length < f1 → c.length < f2 →
      stripLoopFuel f1 igns c = stripLoopFuel f2 igns c := by
  intro f1
  induction f1 with
  | zero => intro f2 igns c h1 _; exact absurd h1 (by omega)
  | succ f1 ih =>
    intro f2 igns c h1 h2
    cases f2 with
    | zero => exact absurd h2 (by omega)
    | succ f2 =>
      simp only [stripLoopFuel]
      by_cases hc : c = []
      · rw [if_pos hc, if_pos hc]
      · rw [if_neg hc, if_neg hc]
        by_cases hcond : (stripPass igns c).2 = true ∧ (stripPass igns c).1 ≠ []
        · rw [if_pos hcond, if_pos hcond]
          have hlt := stripPass_shrink igns c hcond.1 hcond.2
          exact ih f2 igns _ (by omega) (by omega)
        · rw [if_neg hcond, if_neg hcond]

/-- The flag only ever turns on. -/
theorem passStep_flag_mono (st : Str × Bool) (ign : Str) (h : st.2 = true) :
    (passStep st ign).2 = true := by
  unfold passStep suffixStep prefixStep
  split
  · split <;> rfl
  · split
    · rfl
    · exact h

theorem foldl_passStep_flag_mono (igns : List Str) :
    ∀ st : Str × Bool, st.2 = true → (igns.foldl passStep st).2 = true := by
  induction igns with
  | nil => intro st h; exact h
  | cons ign igns ih => intro st h; exact ih _ (passStep_flag_mono st ign h)

/-- If the suffix strip leaves the flag off, it did not fire. -/
theorem suffixStep_flag_false (st : Str × Bool) (ign : Str)
    (h : (suffixStep st ign).2 = false) :
    suffixStep st ign = st ∧ List.isSuffixOf ign st.1 = false := by
  unfold suffixStep at h ⊢
  split at h
  <;> rename_i hc
  · exact absurd h (by simp)
  · rw [if_neg hc]
    rw [Bool.not_eq_true] at hc
    exact ⟨rfl, hc⟩

/-- If the prefix strip leaves the flag off, it did not fire. -/
theorem prefixStep_flag_false (st : Str × Bool) (ign : Str)
    (h : (prefixStep st ign).2 = false) :
    prefixStep st ign = st ∧ List.isPrefixOf ign st.1 = false := by
  unfold prefixStep at h ⊢
  split at h
  <;> rename_i hc
  · exact absurd h (by simp)
  · rw [if_neg hc]
    rw [Bool.not_eq_true] at hc
    exact ⟨rfl, hc⟩

/-- If one iteration leaves the flag off, neither strip fired, so the state is
unchanged and the ignore string matches neither edge. -/
theorem passStep_flag_false (st : Str × Bool) (ign : Str)
    (h : (passStep st ign).2 = false) :
    passStep st ign = st ∧
      List.isPrefixOf ign st.1 = false ∧ List.isSuffixOf ign st.1 = false := by
  unfold passStep at h ⊢
  obtain ⟨hs, hsufx⟩ := suffixStep_flag_false (prefixStep st ign) ign h
  have hpflag : (prefixStep st ign).2 = false := by
    rw [hs] at h
    exact h
  obtain ⟨hp, hprex⟩ := prefixStep_flag_false st ign hpflag
  rw [hp] at hs hsufx
  rw [hp]
  exact ⟨hs, hprex, hsufx⟩

/-- If a full pass ends with the flag off, nothing fired: the state is
unchanged and no ignore string is a prefix or suffix of the token. -/
theorem foldl_passStep_flag_false (igns : List Str) :
    ∀ st : Str × Bool, (igns.foldl passStep st).2 = false →
      igns.foldl passStep st = st ∧
        ∀ ign ∈ igns, List.isPrefixOf ign st.1 = false ∧
          List.isSuffixOf ign st.1 = false := by
  induction igns with
  | nil => intro st _; exact ⟨rfl, by simp⟩
  | cons ign igns ih =>
    intro st h
    simp only [List.foldl_cons] at h ⊢
    have hstep : (passStep st ign).2 = false := by
      by_contra hb
      rw [Bool.not_eq_false] at hb
      rw [foldl_passStep_flag_mono igns _ hb] at h
      exact absurd h (by simp)
    obtain ⟨heq, hp, hs⟩ := passStep_flag_false st ign hstep
    rw [heq] at h ⊢
    obtain ⟨heq2, hrest⟩ := ih st h
    exact ⟨heq2, fun i hi => by
      rcases List.mem_cons.mp hi with rfl | hi'
      · exact ⟨hp, hs⟩
      · exact hrest i hi'⟩

/-- A non-empty result of the while loop is a fixed point of the pass (the
loop exited because a full pass made no change). -/
theorem stripLoopFuel_result (fuel : ℕ) :
    ∀ (igns : List Str) (c : Str), c.length < fuel →
      stripLoopFuel fuel igns c ≠ [] →
      stripPass igns (stripLoopFuel fuel igns c) =
        (stripLoopFuel fuel igns c, false) := by
  induction fuel with
  | zero => intro igns c h _; exact absurd h (by omega)
  | succ fuel ih =>
    intro igns c hlen hne
    simp only [stripLoopFuel] at hne ⊢
    by_cases hc : c = []
    · rw [if_pos hc] at hne
      exact absurd hc hne
    · rw [if_neg hc] at hne ⊢
      by_cases hcond : (stripPass igns c).2 = true ∧ (stripPass igns c).1 ≠ []
      · rw [if_pos hcond] at hne ⊢
        have hlt := stripPass_shrink igns c hcond.1 hcond.2
        exact ih igns _ (by omega) hne
      · rw [if_neg hcond] at hne ⊢
        have hflag : (stripPass igns c).2 = false := by
          rcases Bool.eq_false_or_eq_true (stripPass igns c).2 with hb | hb
          · exact absurd ⟨hb, hne⟩ hcond
          · exact hb
        have hres : stripPass igns c = (c, false) :=
          (foldl_passStep_flag_false igns (c, false) hflag).1
        show stripPass igns (stripPass igns c).1 = ((stripPass igns c).1, false)
        rw [hres]
        exact hres

/-- Edge stripping only ever removes characters. -/
theorem prefixStep_fst_subset (st : Str × Bool) (ign : Str) :
    (prefixStep st ign).1 ⊆ st.1 := by
  unfold prefixStep
  split
  · exact List.drop_subset _ _
  · exact fun a ha => ha

theorem suffixStep_fst_subset (st : Str × Bool) (ign : Str) :
    (suffixStep st ign).1 ⊆ st.1 := by
  unfold suffixStep
  split
  · unfold pySliceDropRight
    split
    · exact List.nil_subset _
    · exact List.take_subset _ _
  · exact fun a ha => ha

theorem passStep_fst_subset (st : Str × Bool) (ign : Str) :
    (passStep st ign).1 ⊆ st.1 := by
  unfold passStep
  exact fun a ha =>
    prefixStep_fst_subset st ign (suffixStep_fst_subset (prefixStep st ign) ign ha)

theorem foldl_passStep_fst_subset (igns : List Str) :
    ∀ st : Str × Bool, (igns.foldl passStep st).1 ⊆ st.1 := by
  induction igns with
  | nil => intro st; exact fun a ha => ha
  | cons ign igns ih =>
    intro st
    exact fun a ha => passStep_fst_subset st ign (ih (passStep st ign) ha)

theorem stripLoopFuel_subset (fuel : ℕ) :
    ∀ (igns : List Str) (c : Str), stripLoopFuel fuel igns c ⊆ c := by
  induction fuel with
  | zero => intro igns c; exact fun a ha => ha
  | succ fuel ih =>
    intro igns c
    simp only [stripLoopFuel]
    split
    · exact fun a ha => ha
    · split
      · exact fun a ha => foldl_passStep_fst_subset igns (c, false) (ih igns _ ha)
      · exact fun a ha => foldl_passStep_fst_subset igns (c, false) ha

/-- Words produced by `text.split()` contain no whitespace. -/
theorem wordsAux_no_ws :
    ∀ (s cur : Str), (∀ c ∈ cur, c.isWhitespace = false) →
      ∀ t ∈ wordsAux s cur, ∀ c ∈ t, c.isWhitespace = false := by
  intro s
  induction s with
  | nil =>
    intro cur hcur t ht c hc
    simp only [wordsAux] at ht
    split at ht
    · simp at ht
    · rw [List.mem_singleton.mp ht] at hc
      exact hcur c (List.mem_reverse.mp hc)
  | cons x xs ih =>
    intro cur hcur t ht c hc
    simp only [wordsAux] at ht
    split at ht
    · split at ht
      · exact ih [] (by simp) t ht c hc
      · rcases List.mem_cons.mp ht with rfl | ht'
        · exact hcur c (List.mem_reverse.mp hc)
        · exact ih [] (by simp) t ht' c hc
    · rename_i hx
      refine ih (x :: cur) ?_ t ht c hc
      intro d hd
      rcases List.mem_cons.mp hd with rfl | hd'
      · simpa using hx
      · exact hcur d hd'

/-- On a whitespace-free run, `split()` accumulates one single word. -/
theorem wordsAux_no_ws_run :
    ∀ (s cur : Str), (∀ c ∈ s, c.isWhitespace = false) →
      wordsAux s cur =
        if cur.reverse ++ s = [] then [] else [cur.reverse ++ s] := by
  intro s
  induction s with
  | nil =>
    intro cur _
    simp only [wordsAux, List.append_nil]
    by_cases hcur : cur = []
    · rw [if_pos hcur, if_pos (by simp [hcur])]
    · rw [if_neg hcur, if_neg (by simpa using hcur)]
  | cons x xs ih =>
    intro cur hs
    have hx : x.isWhitespace = false := hs x (List.mem_cons_self _ _)
    simp only [wordsAux, hx, Bool.false_eq_true, if_false]
    rw [ih (x :: cur) (fun c hc => hs c (List.mem_cons_of_mem _ hc))]
    have : (x :: cur).reverse ++ xs = cur.reverse ++ x :: xs := by
      simp
    rw [this]

/-- A non-empty whitespace-free token splits into exactly itself. -/
theorem pyWords_single (t : Str) (hne : t ≠ [])
    (hnws : ∀ c ∈ t, c.isWhitespace = false) : pyWords t = [t] := by
  unfold pyWords
  rw [wordsAux_no_ws_run t [] hnws]
  simp [hne]

/-! ## Claim C8 -/

/-- C8: every token emitted by `tokenize` is a fixed point — tokenizing it
again with the same ignore list yields exactly that one token — and no ignore
string is a prefix or suffix of it. -/
theorem C8_tokenize_idempotent (text : Str) (igns : List Str) (t : Str)
    (ht : t ∈ tokenize text igns) :
    tokenize t igns = [t] ∧
      ∀ ign ∈ igns, List.isPrefixOf ign t = false ∧
        List.isSuffixOf ign t = false := by
  obtain ⟨raw, hraw, hf⟩ := List.mem_filterMap.mp ht
  by_cases hcond : stripLoop igns raw ≠ [] ∧
      (stripLoop igns raw).any Char.isAlphanum = true
  swap
  · rw [if_neg hcond] at hf
    exact absurd hf (by simp)
  rw [if_pos hcond] at hf
  have hclean : stripLoop igns raw = t := Option.some_inj.mp hf
  have hne : t ≠ [] := by rw [← hclean]; exact hcond.1
  have halnum : t.any Char.isAlphanum = true := by rw [← hclean]; exact hcond.2
  have hsub : t ⊆ raw := by
    rw [← hclean]
    exact stripLoopFuel_subset _ igns raw
  have hraw_nws : ∀ c ∈ raw, c.isWhitespace = false :=
    wordsAux_no_ws text [] (by simp) raw hraw
  have ht_nws : ∀ c ∈ t, c.isWhitespace = false := fun c hc => hraw_nws c (hsub hc)
  have hfix : stripPass igns t = (t, false) := by
    rw [← hclean]
    refine stripLoopFuel_result _ igns raw (by omega) ?_
    show stripLoop igns raw ≠ []
    rw [hclean]
    exact hne
  have hwords : pyWords t = [t] := pyWords_single t hne ht_nws
  have hloop : stripLoop igns t = t := by
    unfold stripLoop
    simp only [stripLoopFuel, if_neg hne, hfix]
    rw [if_neg (by simp)]
  constructor
  · unfold tokenize
    rw [hwords]
    simp only [List.filterMap_cons, List.filterMap_nil, hloop]
    rw [if_pos ⟨hne, halnum⟩]
  · have hff := (foldl_passStep_flag_false igns (t, false)
      (by show (stripPass igns t).2 = false; rw [hfix])).2
    simpa using hff

/-- C8, witness for the theorem at a concrete input: `"hello"` is emitted for
the text `"hello."` with the default ignore list, and re-tokenizing it yields
exactly `["hello"]`. -/
theorem C8_tokenize_idempotent_witness :
    tokenize (pyStr "hello") list_of_strings_to_be_ignored = [pyStr "hello"] :=
  (C8_tokenize_idempotent (pyStr "hello.") list_of_strings_to_be_ignored
    (pyStr "hello") (by decide)).1

/-! ## Claim C10 -/

/-- If the empty string is in the ignore list, every pass empties the token:
`cleaned.startswith("")` and `cleaned.endswith("")` are both true and the
suffix strip is `cleaned[:-0] = ""`. -/
theorem stripPass_fst_nil_of_mem (igns : List Str) :
    ∀ st : Str × Bool, [] ∈ igns → (igns.foldl passStep st).1 = [] := by
  induction igns with
  | nil => intro st h; simp at h
  | cons ign igns ih =>
    intro st h
    rcases List.mem_cons.mp h with heq | hmem
    · rw [← heq]
      simp only [List.foldl_cons]
      refine foldl_passStep_fst_nil igns _ ?_
      rw [passStep_nil_ign]
    · exact ih _ hmem

/-- C10, counterexample: with the ignore list `[""]` and the non-empty raw
token `"a"`, the loop does not spin forever: a single pass already empties the
token (Python's `cleaned[:-0]` is `""`), the while condition fails, and
`tokenize` terminates returning no tokens. -/
theorem C10_counterexample :
    stripPass [[]] (pyStr "a") = ([], true) ∧
    stripLoop [[]] (pyStr "a") = [] ∧
    tokenize (pyStr "a") [[]] = [] := by
  refine ⟨?_, ?_, ?_⟩
  · decide
  · decide
  · decide

/-- C10, amended: `tokenize` yields a finite token sequence for EVERY ignore
list — the non-empty-strings precondition is not needed, and in particular an
empty-string ignore entry does not make the loop spin forever: its zero-length
suffix strip truncates the token to empty, so every raw token is dropped and
the result is the empty sequence. -/
theorem C10_amended (text : Str) (igns : List Str) :
    (tokenize text igns).length ≤ (pyWords text).length ∧
    ([] ∈ igns → tokenize text igns = []) := by
  constructor
  · exact List.length_filterMap_le _ _
  · intro hmem
    have hstrip : ∀ c : Str, stripLoop igns c = [] := by
      intro c
      have h1 : (stripPass igns c).1 = [] :=
        stripPass_fst_nil_of_mem igns (c, false) hmem
      unfold stripLoop
      simp only [stripLoopFuel]
      split
      · assumption
      · rw [if_neg (by simp [h1])]
        exact h1
    unfold tokenize
    rw [List.filterMap_eq_nil_iff.mpr]
    intro raw _
    rw [if_neg (by simp [hstrip raw])]

/-- C10, witness for the amended theorem at a concrete input. -/
theorem C10_amended_witness : tokenize (pyStr "b c") [[]] = [] :=
  (C10_amended (pyStr "b c") [[]]).2 (by decide)

/-! ## Claim C9 -/

/-- C9, counterexample: in `["*A", "b", "c"]` the continuation line `"b"`
immediately follows the marker line `"*A"`, but the output contains no record
`"*A b"` — the second continuation line is glued onto the same record, giving
`"*A b c"`. -/
theorem C9_counterexample :
    get_cleaned_transcript [pyStr "*A", pyStr "b", pyStr "c"] = [pyStr "*A b c"] ∧
    pyStr "*A b" ∉ get_cleaned_transcript [pyStr "*A", pyStr "b", pyStr "c"] := by
  constructor
  · decide
  · decide

/-- C9, amended: empty input yields an empty sequence, and whenever a
continuation line immediately follows a marker line and is the last line of
its merged group (the next line, if any, is again a marker line), the output
contains exactly one record for the pair, at the position after the merged
prefix: it is the stripped marker content, a single space, and the stripped
continuation content. -/
theorem C9_amended :
    get_cleaned_transcript [] = [] ∧
    ∀ (pre : List Str) (m c : Str) (post : List Str),
      isMarkerLine (pyStrip m) = true →
      isMarkerLine (pyStrip c) = false →
      (post = [] ∨ ∃ p ps, post = p :: ps ∧ isMarkerLine (pyStrip p) = true) →
      get_cleaned_transcript (pre ++ m :: c :: post) =
        get_cleaned_transcript pre ++ (pyStrip m ++ ' ' :: pyStrip c) :: get_cleaned_transcript post := by
  refine ⟨rfl, ?_⟩
  intro pre m c post hm hc hpost
  unfold get_cleaned_transcript
  rw [List.foldl_append]
  simp only [List.foldl_cons]
  have hstepm : cleanStep (List.foldl cleanStep [] pre) m =
      List.foldl cleanStep [] pre ++ [pyStrip m] := by
    unfold cleanStep
    rw [if_pos hm]
  have hstepc : cleanStep (List.foldl cleanStep [] pre ++ [pyStrip m]) c =
      List.foldl cleanStep [] pre ++ [pyStrip m ++ ' ' :: pyStrip c] := by
    unfold cleanStep
    rw [if_neg (by simp [hc]), if_neg (by simp), List.dropLast_concat,
      List.getLastD_concat]
  rw [hstepm, hstepc]
  rcases hpost with rfl | ⟨p, ps, rfl, hp⟩
  · simp
  · rw [foldl_cleanStep_append _ _ _ (List.cons_ne_nil _ _)]
    congr 1
    simp only [List.foldl_cons]
    have hstep1 : cleanStep [pyStrip m ++ ' ' :: pyStrip c] p =
        [pyStrip m ++ ' ' :: pyStrip c, pyStrip p] := by
      unfold cleanStep
      rw [if_pos hp]
      rfl
    have hstep2 : cleanStep [] p = [pyStrip p] := by
      unfold cleanStep
      rw [if_pos hp]
      rfl
    rw [hstep1, hstep2]
    exact foldl_cleanStep_append ps [pyStrip m ++ ' ' :: pyStrip c] [pyStrip p]
      (List.cons_ne_nil _ _)

/-- C9, witness for the amended theorem at a concrete input. -/
theorem C9_amended_witness :
    get_cleaned_transcript [pyStr "*A", pyStr "b"] =
      get_cleaned_transcript [] ++
        (pyStrip (pyStr "*A") ++ ' ' :: pyStrip (pyStr "b")) :: get_cleaned_transcript [] := by
  exact C9_amended.2 [] (pyStr "*A") (pyStr "b") [] (by decide) (by decide) (Or.inl rfl)

/-! ## Claim C4 -/

/-- In a table whose counts are all positive, the number of entries is at most
the total count. -/
theorem length_le_sum_counts :
    ∀ d : List (Str × ℕ), (∀ p ∈ d, 0 < p.2) → d.length ≤ (d.map Prod.snd).sum := by
  intro d
  induction d with
  | nil => intro _; simp
  | cons p d ih =>
    intro h
    have hp := h p (List.mem_cons_self _ _)
    have hd := ih (fun q hq => h q (List.mem_cons_of_mem _ hq))
    simp only [List.length_cons, List.map_cons, List.sum_cons]
    omega

/-- For `0 < N` and `T ≤ N`, the two-decimal rounding of `T / N` stays within
`[0, 100]` hundredths. -/
theorem roundHalfEvenNat_le_100 (T N : ℕ) (hN : 0 < N) (hTN : T ≤ N) :
    roundHalfEvenNat (100 * T) N ≤ 100 := by
  unfold roundHalfEvenNat
  rcases Nat.lt_or_ge T N with hlt | hge
  · have hdiv : 100 * T / N < 100 := by
      rw [Nat.div_lt_iff_lt_mul hN]
      omega
    split
    · omega
    · split
      · omega
      · split <;> omega
  · have hTN' : T = N := le_antisymm hTN hge
    subst hTN'
    have hf : 100 * T / T = 100 := Nat.mul_div_left 100 hN
    have hr : 100 * T % T = 0 := Nat.mul_mod_left 100 T
    split
    · omega
    · split
      · omega
      · split <;> omega

/-- C4, counterexample: for the non-empty table `{"a": 1000}` with a positive
count, the TTR is `round(1/1000, 2) = 0.0`, not strictly positive. -/
theorem C4_counterexample :
    compute_ttr_from_frequencies [(pyStr "a", 1000)] = 0 := by
  unfold compute_ttr_from_frequencies
  have h : roundHalfEvenNat (100 * ([(pyStr "a", 1000)] : List (Str × ℕ)).length)
      (([(pyStr "a", 1000)].map Prod.snd).sum) = 0 := by decide
  rw [if_pos (by decide), h]
  norm_num

/-- C4, amended: the TTR of an empty table is 0, and for every non-empty table
whose counts are all positive the TTR lies in `[0, 1]` — but it is not always
strictly positive, because the two-decimal rounding can reach 0 (see the
counterexample). -/
theorem C4_amended :
    compute_ttr_from_frequencies [] = 0 ∧
    ∀ d : List (Str × ℕ), d ≠ [] → (∀ p ∈ d, 0 < p.2) →
      0 ≤ compute_ttr_from_frequencies d ∧ compute_ttr_from_frequencies d ≤ 1 := by
  constructor
  · rfl
  · intro d hne hpos
    have hTN : d.length ≤ (d.map Prod.snd).sum := length_le_sum_counts d hpos
    have hN : 0 < (d.map Prod.snd).sum := by
      rcases d with _ | ⟨p, d⟩
      · exact absurd rfl hne
      · have := hpos p (List.mem_cons_self _ _)
        simp only [List.map_cons, List.sum_cons]
        omega
    unfold compute_ttr_from_frequencies
    rw [if_pos hN]
    constructor
    · apply div_nonneg (by positivity) (by norm_num)
    · rw [div_le_one (by norm_num : (0:ℚ) < 100)]
      have h100 := roundHalfEvenNat_le_100 d.length _ hN hTN
      exact_mod_cast h100

/-- C4, witness for the amended theorem at a concrete input. -/
theorem C4_amended_witness :
    0 ≤ compute_ttr_from_frequencies [(pyStr "a", 2), (pyStr "b", 1)] ∧
    compute_ttr_from_frequencies [(pyStr "a", 2), (pyStr "b", 1)] ≤ 1 :=
  C4_amended.2 _ (by decide) (by decide)

/-! ## Claim C5 -/

/-- C5, counterexample: with `pattern=None` (its default) and the unsupported
mode `"bogus"`, `get_frequencies` does not raise the invalid-match-mode error
— the check is gated on the pattern being truthy. -/
theorem C5_counterexample :
    get_frequencies [] (pyStr "*CHI") (pyStr "utterance") none (pyStr "bogus") =
      .ok [] ∧
    allowed_match_types.contains (pyStr "bogus") = false :=
  ⟨rfl, by decide⟩

/-- C5, amended: `get_frequencies` reports the invalid-match-mode error if and
only if the structured-transcript step succeeds, the pattern argument is a
non-`None`, non-empty string, and the match mode is not one of the four
supported ones; with no (or an empty) pattern an unsupported mode is silently
accepted. -/
theorem C5_amended (recording : List Str) (speaker tier : Str)
    (pattern : Option Str) (match_type : Str) :
    get_frequencies recording speaker tier pattern match_type =
        .error .invalidMatchMode ↔
      ((get_structured_transcript recording).isSome = true ∧
        patternTruthy pattern = true ∧
        allowed_match_types.contains match_type = false) := by
  cases hst : get_structured_transcript recording with
  | none => simp [get_frequencies, hst]
  | some st =>
    cases hb : (patternTruthy pattern && !(allowed_match_types.contains match_type)) with
    | false =>
      simp only [get_frequencies, hst, hb, Bool.false_eq_true, if_false]
      constructor
      · intro h
        exact absurd h (by simp)
      · rintro ⟨_, h2, h3⟩
        rw [h2, h3] at hb
        simp at hb
    | true =>
      simp only [get_frequencies, hst, hb, if_true]
      simp only [Bool.and_eq_true, Bool.not_eq_true'] at hb
      simp [hb]
      simpa using hb.2

end ChildesPython
